import Mathlib

/-!
Verification of `src/codegen/static_def_gen.py`, a build-time code generator
that embeds binary files as C++ static byte-array definitions.

The script is a linear pipeline: each command-line argument `<entry>:<pattern>`
is split with `split(':', 2)`, files are enumerated from a directory
(`os.walk` + `os.path.relpath`) or a zip archive (`zipfile.ZipFile.namelist`),
filtered with `re.match` (anchored at position 0, trailing text allowed),
sorted by relative path (Python `sorted`, a stable sort on the path key), and
rendered: per entry one byte-array declaration and one path declaration, then
one aggregate table.

Strings are modelled as `List Char` (`Str`), byte streams as `List Nat`.
Python's `re` regular expressions are modelled by a small syntax tree
(`Regex`) together with an executable matcher (`matchEnds` / `reMatch`) and a
declarative semantics (`MatchSpan`); the matcher is proved sound and complete
for the declarative semantics.  The file system is modelled as a map from
location strings to `Location` values, and `re.compile` as a parameter
`compile : Str → Option Regex` (`none` models a pattern whose compilation
raises).  Errors raised while the `EnumerateInputs` generator is being drained
are modelled by returning, next to the entries yielded so far, an
`Option GenError`.
-/

set_option maxHeartbeats 1000000

abbrev Str := List Char

/-- Lexicographic (code-point wise) `less or equal` on strings, the order
Python uses when comparing `str` values, as `sorted` does on the path keys. -/
def lexLe : Str → Str → Bool
  | [], _ => true
  | _ :: _, [] => false
  | a :: as, b :: bs => if a < b then true else if b < a then false else lexLe as bs

/-- Lexicographic strict `less than` on strings (code-point wise). -/
def lexLt : Str → Str → Bool
  | [], [] => false
  | [], _ :: _ => true
  | _ :: _, [] => false
  | a :: as, b :: bs => if a < b then true else if b < a then false else lexLt as bs

/-- Python `s.split(sep, maxsplit)` restricted to a single-character
separator: the first argument is the number of splits still allowed.
`split(':', 2)` in the source is `pySplit ':' 2`. -/
def breakAtSep (sep : Char) : Str → Option (Str × Str)
  | [] => none
  | c :: cs =>
    if c = sep then some ([], cs)
    else (breakAtSep sep cs).map (fun p => (c :: p.1, p.2))

def pySplit (sep : Char) : Nat → Str → List Str
  | 0, s => [s]
  | m + 1, s =>
    match breakAtSep sep s with
    | none => [s]
    | some (pre, post) => pre :: pySplit sep m post

/-- Component `components[0]` of `current_input.split(':', 2)` (line 88 of the
source); the split list is never empty, so this access cannot fail. -/
def locationComponent (s : Str) : Str := (pySplit ':' 2 s).headD []

/-- Component `components[1]` of `current_input.split(':', 2)` (line 89 of the
source); `none` models the `IndexError` raised when the list has one element. -/
def patternComponent (s : Str) : Option Str := (pySplit ':' 2 s).get? 1

/-- Model of `os.path.basename` for POSIX paths: the suffix after the last
path separator. -/
def basename (p : Str) : Str := (p.reverse.takeWhile (fun c => c ≠ '/')).reverse

/-- Model of `_GetName` (source lines 110-112):
`os.path.basename(item['path']).replace('.', '_').replace('$', '_')`. -/
def getName (p : Str) : Str :=
  ((basename p).map (fun c => if c = '.' then '_' else c)).map
    (fun c => if c = '$' then '_' else c)

/-- Splits a string around its last `.`: `some (before, after)` where `after`
contains no `.`, or `none` when the string contains no `.` at all. -/
def lastDotSplit : Str → Option (Str × Str)
  | [] => none
  | c :: cs =>
    match lastDotSplit cs with
    | some (b, a) => some (c :: b, a)
    | none => if c = '.' then some ([], cs) else none

/-- Model of `os.path.splitext(path)[1]` for POSIX paths (CPython
`genericpath._splitext`): the extension starting with `.`, empty when the
final path segment has no dot, or when all characters of the segment before
its last dot are themselves dots (so `.bashrc` has no extension). -/
def splitextExt (p : Str) : Str :=
  match lastDotSplit (basename p) with
  | none => []
  | some (b, a) => if b.all (fun c => c = '.') then [] else '.' :: a

/-- Model of `re.sub('^\\.', '', s)` (source line 147): remove one leading
dot, if present. -/
def stripLeadingDot : Str → Str
  | '.' :: r => r
  | s => s

/-- Extension field written into the generated table (source line 147). -/
def extField (p : Str) : Str := stripLeadingDot (splitextExt p)

-- ## Regular expressions

/-- Syntax of the fragment of Python regular expressions the model covers:
empty pattern, literal character, `.`, concatenation, alternation `|`,
Kleene star `*`, and the anchors `^` and `$`. -/
inductive Regex where
  | eps : Regex
  | char (c : Char) : Regex
  | anyc : Regex
  | concat (r1 r2 : Regex) : Regex
  | alt (r1 r2 : Regex) : Regex
  | star (r : Regex) : Regex
  | bol : Regex
  | eol : Regex
deriving DecidableEq

/-- Literal string pattern: concatenation of its characters. -/
def strLit : Str → Regex
  | [] => .eps
  | c :: cs => .concat (.char c) (strLit cs)

/-- Iterates a star body from position `i`: collects `i` together with every
position reachable by one strictly advancing body match followed by further
iterations.  Restricting to strictly advancing steps loses no end position
and bounds the iteration count by the string length, so `fuel` =
`s.length + 1` always suffices. -/
def starIter (limit : Nat) (step : Nat → List Nat) : Nat → Nat → List Nat
  | 0, i => [i]
  | fuel + 1, i =>
    i :: (((step i).filter (fun k => decide (i < k) && decide (k ≤ limit))).map
      (starIter limit step fuel)).flatten

/-- Executable matcher: all end positions of matches of `r` in `s` starting
at position `i`.  `^` succeeds exactly at position 0 and `$` exactly at the
end of the string (the source never uses `re.MULTILINE`); `.` matches any
character except a newline, as in Python without `re.DOTALL`. -/
def matchEnds (s : Str) : Regex → Nat → List Nat
  | .eps, i => [i]
  | .char c, i =>
    match s.get? i with
    | some c' => if c' = c then [i + 1] else []
    | none => []
  | .anyc, i =>
    match s.get? i with
    | some c' => if c' = '\n' then [] else [i + 1]
    | none => []
  | .bol, i => if i = 0 then [i] else []
  | .eol, i => if i = s.length then [i] else []
  | .concat r1 r2, i => ((matchEnds s r1 i).map (matchEnds s r2)).flatten
  | .alt r1 r2, i => matchEnds s r1 i ++ matchEnds s r2 i
  | .star r, i => starIter s.length (matchEnds s r) (s.length + 1) i

/-- Model of the truth value of `pattern.match(path)` (source lines 95 and
103): `re.match` anchors the match at position 0 and allows trailing
characters, so it succeeds exactly when some end position is reachable
from 0. -/
def reMatch (r : Regex) (s : Str) : Bool := !(matchEnds s r 0).isEmpty

/-- Declarative semantics: `MatchSpan s r i j` says the regular expression
`r` matches exactly the span of `s` from position `i` to position `j`. -/
inductive MatchSpan (s : Str) : Regex → Nat → Nat → Prop where
  | eps {i : Nat} : MatchSpan s .eps i i
  | char {c : Char} {i : Nat} : s.get? i = some c → MatchSpan s (.char c) i (i + 1)
  | anyc {c : Char} {i : Nat} : s.get? i = some c → c ≠ '\n' →
      MatchSpan s .anyc i (i + 1)
  | bol : MatchSpan s .bol 0 0
  | eol : MatchSpan s .eol s.length s.length
  | concatM {r1 r2 : Regex} {i k j : Nat} : MatchSpan s r1 i k →
      MatchSpan s r2 k j → MatchSpan s (.concat r1 r2) i j
  | altL {r1 r2 : Regex} {i j : Nat} : MatchSpan s r1 i j →
      MatchSpan s (.alt r1 r2) i j
  | altR {r1 r2 : Regex} {i j : Nat} : MatchSpan s r2 i j →
      MatchSpan s (.alt r1 r2) i j
  | starNil {r : Regex} {i : Nat} : MatchSpan s (.star r) i i
  | starCons {r : Regex} {i k j : Nat} : MatchSpan s r i k →
      MatchSpan s (.star r) k j → MatchSpan s (.star r) i j

-- ## Decimal rendering and the byte-array declaration

/-- Decimal digits of `n`, most significant first, computed with explicit
fuel so that the definition reduces by `decide`; `natToDec` supplies enough
fuel.  This is Python `str(ord(byte))` for a non-negative integer. -/
def natToDecAux : Nat → Nat → Str
  | 0, _ => []
  | fuel + 1, n =>
    if n < 10 then [Char.ofNat (48 + n)]
    else natToDecAux fuel (n / 10) ++ [Char.ofNat (48 + n % 10)]

def natToDec (n : Nat) : Str := natToDecAux (n + 1) n

/-- Body of the byte-array initializer: the loop of source lines 127-131
writes `'%s, ' % str(ord(byte))` for each byte of the stream, in order,
until `f.read(1)` is exhausted. -/
def bytesBody (content : List Nat) : Str :=
  (content.map (fun b => natToDec b ++ (", ".toList))).flatten

/-- Byte-array declaration written for one entry (source lines 125-132):
`static constexpr uint8 k<name>[] = { <bytes> };`. -/
def renderByteArrayDecl (name : Str) (content : List Nat) : Str :=
  ("static constexpr uint8 k".toList) ++ name ++ ("[] = \x7b ".toList) ++
    bytesBody content ++ ("\x7d;\n".toList)

/-- Path declaration written for one entry (source line 134). -/
def renderPathDecl (name path : Str) : Str :=
  ("static constexpr char k".toList) ++ name ++ ("_path[] = \"".toList) ++
    path ++ ("\";\n".toList)

/-- Decoder for a decimal number at the head of a string: value of the
maximal digit run and the remaining characters. -/
def parseDigits (s : Str) : Nat × Str :=
  ((s.takeWhile (fun c => c.isDigit)).foldl
    (fun (acc : Nat) (c : Char) => acc * 10 + (c.toNat - 48)) 0,
   s.dropWhile (fun c => c.isDigit))

/-- Decoder for the byte list of an array initializer: reads `<digits>, `
repeatedly until the closing brace. -/
def parseBytes : Str → Option (List Nat)
  | [] => none
  | c :: cs =>
    if c = '\x7d' then some []
    else if c.isDigit then
      match h : parseDigits (c :: cs) with
      | (n, ',' :: ' ' :: rest) => (parseBytes rest).map (fun l => n :: l)
      | _ => none
    else none
termination_by s => s.length
decreasing_by
  have hsub : ((c :: cs).dropWhile (fun x : Char => x.isDigit)).length ≤ (c :: cs).length :=
    (List.dropWhile_sublist (fun x : Char => x.isDigit)).length_le
  have h2 : (parseDigits (c :: cs)).2 = ',' :: ' ' :: rest := by rw [h]
  simp only [parseDigits] at h2
  rw [h2] at hsub
  simp at hsub ⊢
  omega

/-- Decoder for a whole emitted byte-array declaration: skip to the opening
brace and read the comma-separated decimal bytes. -/
def decodeByteArrayDecl (s : Str) : Option (List Nat) :=
  match s.dropWhile (fun c => c ≠ '\x7b') with
  | '\x7b' :: ' ' :: rest => parseBytes rest
  | _ => none

-- ## The enumeration pipeline

/-- File-system object a location string can denote.  A `dir` carries the
relative path and content of every file `os.walk` finds beneath it; an
`unreadableDir` is a directory `os.path.isdir` accepts but whose contents
`os.walk` cannot list — with the default `onerror=None` of source line 91
the error is silently ignored and the walk yields nothing.  An `archive`
carries name and content of every member listed by `namelist()`;
`badArchive` is an existing file `zipfile.ZipFile` rejects
(`zipfile.BadZipFile`); `missing` is a path that does not exist, on which
`zipfile.ZipFile` raises `FileNotFoundError`, an `OSError`. -/
inductive Location where
  | dir (files : List (Str × List Nat)) : Location
  | unreadableDir : Location
  | archive (entries : List (Str × List Nat)) : Location
  | badArchive : Location
  | missing : Location
deriving DecidableEq

/-- Exceptions the enumeration can raise while the generator is drained:
`indexError` for `components[1]` on a spec without a colon,
`patternSyntaxError` for `re.compile` on an invalid pattern (`re.error`),
`fileNotFound` for `zipfile.ZipFile` on a missing path (`OSError`, a
file-system error), `badZipFile` for an invalid archive
(`zipfile.BadZipFile`, an archive-format error). -/
inductive GenError where
  | indexError : GenError
  | patternSyntaxError : GenError
  | fileNotFound : GenError
  | badZipFile : GenError
deriving DecidableEq

/-- Entry yielded by `EnumerateInputs`: relative path together with the
bytes its `open` closure gives access to. -/
structure Entry where
  path : Str
  content : List Nat
deriving DecidableEq

/-- One iteration of the outer loop of `EnumerateInputs` (source lines
86-107) on a single spec string: split at the first two colons, compile the
pattern (`compile` plays the role of `re.compile`), then list the directory
or archive at the location and keep the entries whose relative path
`pattern.match` accepts.  The result holds the entries yielded and the
exception, if any, that terminates the generator. -/
def enumerateOne (world : Str → Location) (compile : Str → Option Regex)
    (input : Str) : List Entry × Option GenError :=
  match patternComponent input with
  | none => ([], some .indexError)
  | some patStr =>
    match compile patStr with
    | none => ([], some .patternSyntaxError)
    | some r =>
      match world (locationComponent input) with
      | .dir files =>
        ((files.filter (fun f => reMatch r f.1)).map (fun f => ⟨f.1, f.2⟩), none)
      | .unreadableDir => ([], none)
      | .archive es =>
        ((es.filter (fun f => reMatch r f.1)).map (fun f => ⟨f.1, f.2⟩), none)
      | .badArchive => ([], some .badZipFile)
      | .missing => ([], some .fileNotFound)

/-- Model of draining the `EnumerateInputs` generator, as `sorted` does on
source line 120: specs are processed left to right; the entries of a spec
are yielded before the next spec is even looked at, and the first exception
ends the run, keeping the entries yielded so far. -/
def EnumerateInputs (world : Str → Location) (compile : Str → Option Regex) :
    List Str → List Entry × Option GenError
  | [] => ([], none)
  | input :: rest =>
    match enumerateOne world compile input with
    | (items, some e) => (items, some e)
    | (items, none) =>
      match EnumerateInputs world compile rest with
      | (items', err) => (items ++ items', err)

/-- The sort of source lines 120-121: Python `sorted` with the relative
path as key, i.e. a stable sort under the lexicographic string order.
Insertion sort with `lexLe` is such a stable sort. -/
def entryLe (a b : Entry) : Prop := lexLe a.path b.path = true

instance : DecidableRel entryLe := fun a b => by
  unfold entryLe; infer_instance

def sortEntries (l : List Entry) : List Entry := List.insertionSort entryLe l

/-- Record of the generated `kBinaryFiles` table for one entry (source
lines 144-153): the referenced path string, the extension with the leading
dot stripped, the name of the referenced byte array, and its size. -/
structure TableRecord where
  path : Str
  ext : Str
  name : Str
  size : Nat
deriving DecidableEq

def recordOf (e : Entry) : TableRecord :=
  ⟨e.path, extField e.path, getName e.path, e.content.length⟩

/-- Records of the generated table, in output order. -/
def tableRecords (entries : List Entry) : List TableRecord :=
  (sortEntries entries).map recordOf

/-- Per-entry output block (source lines 122-134). -/
def renderEntryBlock (e : Entry) : Str :=
  renderByteArrayDecl (getName e.path) e.content ++
    renderPathDecl (getName e.path) e.path

/-- One row of the `kBinaryFiles` table (source lines 148-153). -/
def renderTableRow (rec : TableRecord) : Str :=
  ("  \x7b\n    k".toList) ++ rec.name ++ ("_path,\n    \"".toList) ++
    rec.ext ++ ("\",\n    k".toList) ++ rec.name ++
    (",\n    arraysize(k".toList) ++ rec.name ++ (")\n  \x7d,\n".toList)

/-- Header of the table declaration (source lines 138-143). -/
def tableHeader : Str :=
  ("static constexpr struct \x7b\n  const char* path;\n  const char* extension;\n  const uint8* data;\n  int data_size;\n\x7d kBinaryFiles[] = \x7b\n".toList)

/-- Full text `Generate` writes to the output file (source lines 115-156):
the per-entry blocks in sorted order, a blank line, and the table. -/
def GenerateOutput (entries : List Entry) : Str :=
  ((sortEntries entries).map renderEntryBlock).flatten ++ ("\n".toList) ++
    tableHeader ++ ((tableRecords entries).map renderTableRow).flatten ++
    ("\x7d;\n".toList)

-- ## Concrete instances used in witnesses and counterexamples

/-- Small file system: `d` is a directory with one file `a` (one byte 65),
`e` a directory with files `a` and `b`, `u` an unreadable directory, `z` an
existing file that is not a valid archive; everything else is missing. -/
def world0 : Str → Location := fun s =>
  if s = ['d'] then .dir [(['a'], [65])]
  else if s = ['e'] then .dir [(['a'], [65]), (['b'], [66])]
  else if s = ['u'] then .unreadableDir
  else if s = ['z'] then .badArchive
  else .missing

/-- Model of `re.compile` on the pattern strings the concrete scenarios
use: the empty pattern compiles to the empty regex, `a` to the literal
character, and anything else — in particular the syntactically invalid
`(` — fails to compile. -/
def compile0 : Str → Option Regex := fun s =>
  if s = [] then some .eps
  else if s = ['a'] then some (.char 'a')
  else none

/-- The pattern `^a/b` of the claim about prefix-anchored matching. -/
def patAB : Regex := .concat .bol (strLit ("a/b".toList))

/-- Single substitution the identifier claim describes: every `.` and `$`
becomes `_`, nothing else changes. -/
def substBoth (c : Char) : Char := if c = '.' ∨ c = '$' then '_' else c

-- ## Theorems about the string primitives

theorem lexLe_total : ∀ a b : Str, lexLe a b = true ∨ lexLe b a = true := by
  intro a
  induction a with
  | nil => intro b; left; rfl
  | cons c cs ih =>
    intro b
    cases b with
    | nil => right; rfl
    | cons d ds =>
      by_cases h1 : c < d
      · left; simp [lexLe, h1]
      · by_cases h2 : d < c
        · right; simp [lexLe, h2]
        · have := ih ds
          rcases this with h | h
          · left; simp [lexLe, h1, h2, h]
          · right; simp [lexLe, h1, h2, h]

theorem lexLe_trans : ∀ a b c : Str, lexLe a b = true → lexLe b c = true →
    lexLe a c = true := by
  intro a
  induction a with
  | nil => intro b c _ _; rfl
  | cons x xs ih =>
    intro b c hab hbc
    cases b with
    | nil => simp [lexLe] at hab
    | cons y ys =>
      cases c with
      | nil => simp [lexLe] at hbc
      | cons z zs =>
        simp only [lexLe] at hab hbc ⊢
        by_cases hxy : x < y
        · by_cases hyz : y < z
          · have hxz : x < z := lt_trans hxy hyz
            simp [hxz]
          · by_cases hzy : z < y
            · simp [hyz, hzy] at hbc
            · have hyeq : y = z := le_antisymm (not_lt.mp hzy) (not_lt.mp hyz)
              subst hyeq
              simp [hxy]
        · by_cases hyx : y < x
          · simp [hxy, hyx] at hab
          · have hxeq : x = y := le_antisymm (not_lt.mp hyx) (not_lt.mp hxy)
            subst hxeq
            by_cases hyz : x < z
            · simp [hyz]
            · by_cases hzy : z < x
              · simp [hyz, hzy] at hbc
              · simp [hxy, hyx] at hab
                simp [hyz, hzy] at hbc ⊢
                exact ih ys zs hab hbc

theorem lexLt_iff : ∀ a b : Str, lexLt a b = true ↔ (lexLe a b = true ∧ a ≠ b) := by
  intro a
  induction a with
  | nil =>
    intro b
    cases b with
    | nil => simp [lexLt, lexLe]
    | cons d ds => simp [lexLt, lexLe]
  | cons c cs ih =>
    intro b
    cases b with
    | nil => simp [lexLt, lexLe]
    | cons d ds =>
      by_cases h1 : c < d
      · have hne : c ≠ d := ne_of_lt h1
        simp [lexLt, lexLe, h1, hne]
      · by_cases h2 : d < c
        · simp [lexLt, lexLe, h1, h2]
        · have hceq : c = d := le_antisymm (not_lt.mp h2) (not_lt.mp h1)
          subst hceq
          simp only [lexLt, lexLe]
          rw [if_neg h1, if_neg h1, if_neg h2, if_neg h2, ih ds]
          simp

theorem lexLe_refl : ∀ a : Str, lexLe a a = true := by
  intro a
  induction a with
  | nil => rfl
  | cons c cs ih => simp [lexLe, ih]

-- ## Theorems about `pySplit`

theorem breakAtSep_of_not_mem {sep : Char} : ∀ {s : Str}, sep ∉ s →
    breakAtSep sep s = none := by
  intro s
  induction s with
  | nil => intro _; rfl
  | cons c cs ih =>
    intro h
    have hc : c ≠ sep := fun he => h (he ▸ List.mem_cons_self c cs)
    have hcs : sep ∉ cs := fun hm => h (List.mem_cons_of_mem c hm)
    simp [breakAtSep, hc, ih hcs]

theorem breakAtSep_append {sep : Char} : ∀ {a : Str} (b : Str), sep ∉ a →
    breakAtSep sep (a ++ sep :: b) = some (a, b) := by
  intro a
  induction a with
  | nil => intro b _; simp [breakAtSep]
  | cons c cs ih =>
    intro b h
    have hc : c ≠ sep := fun he => h (he ▸ List.mem_cons_self c cs)
    have hcs : sep ∉ cs := fun hm => h (List.mem_cons_of_mem c hm)
    simp [breakAtSep, hc, ih b hcs]

theorem pySplit_of_not_mem {sep : Char} {m : Nat} {s : Str} (h : sep ∉ s) :
    pySplit sep m s = [s] := by
  cases m with
  | zero => rfl
  | succ m => simp [pySplit, breakAtSep_of_not_mem h]

theorem pySplit_two_one_colon {loc pat : Str} (hl : ':' ∉ loc) (hp : ':' ∉ pat) :
    pySplit ':' 2 (loc ++ ':' :: pat) = [loc, pat] := by
  simp [pySplit, breakAtSep_append pat hl, breakAtSep_of_not_mem hp]

theorem pySplit_two_two_colons {loc p1 : Str} (p2 : Str)
    (hl : ':' ∉ loc) (hp : ':' ∉ p1) :
    pySplit ':' 2 (loc ++ ':' :: p1 ++ ':' :: p2) = [loc, p1, p2] := by
  simp [pySplit, breakAtSep_append (p1 ++ ':' :: p2) hl, breakAtSep_append p2 hp]

theorem patternComponent_one_colon {loc pat : Str} (hl : ':' ∉ loc)
    (hp : ':' ∉ pat) : patternComponent (loc ++ ':' :: pat) = some pat := by
  simp [patternComponent, pySplit_two_one_colon hl hp]

theorem locationComponent_one_colon {loc pat : Str} (hl : ':' ∉ loc)
    (hp : ':' ∉ pat) : locationComponent (loc ++ ':' :: pat) = loc := by
  simp [locationComponent, pySplit_two_one_colon hl hp]

theorem patternComponent_no_colon {s : Str} (h : ':' ∉ s) :
    patternComponent s = none := by
  simp [patternComponent, pySplit_of_not_mem h]

-- ## Soundness and completeness of the matcher

theorem MatchSpan.pos_le {s : Str} {r : Regex} {i j : Nat}
    (h : MatchSpan s r i j) : i ≤ j := by
  induction h with
  | eps => exact le_refl _
  | char _ => exact Nat.le_succ _
  | anyc _ _ => exact Nat.le_succ _
  | bol => exact le_refl _
  | eol => exact le_refl _
  | concatM _ _ ih1 ih2 => exact le_trans ih1 ih2
  | altL _ ih => exact ih
  | altR _ ih => exact ih
  | starNil => exact le_refl _
  | starCons _ _ ih1 ih2 => exact le_trans ih1 ih2

theorem MatchSpan.end_le_length {s : Str} {r : Regex} {i j : Nat}
    (h : MatchSpan s r i j) : i < j → j ≤ s.length := by
  induction h with
  | eps => omega
  | char hc =>
    intro _
    have h3 := (List.get?_eq_some.mp hc).1
    omega
  | anyc hc _ =>
    intro _
    have h3 := (List.get?_eq_some.mp hc).1
    omega
  | bol => omega
  | eol => omega
  | concatM h1 h2 ih1 ih2 =>
    intro hij
    rcases lt_or_eq_of_le h2.pos_le with hk | hk
    · exact ih2 hk
    · subst hk
      exact ih1 hij
  | altL _ ih => exact ih
  | altR _ ih => exact ih
  | starNil => omega
  | starCons h1 h2 ih1 ih2 =>
    intro hij
    rcases lt_or_eq_of_le h2.pos_le with hk | hk
    · exact ih2 hk
    · subst hk
      exact ih1 hij

theorem MatchSpan.star_norm {s : Str} {q : Regex} {i j : Nat}
    (h : MatchSpan s q i j) : ∀ r : Regex, q = .star r →
    i = j ∨ ∃ k, i < k ∧ k ≤ s.length ∧ MatchSpan s r i k ∧
      MatchSpan s (.star r) k j := by
  induction h with
  | eps => intro r hr; cases hr
  | char _ => intro r hr; cases hr
  | anyc _ _ => intro r hr; cases hr
  | bol => intro r hr; cases hr
  | eol => intro r hr; cases hr
  | concatM _ _ _ _ => intro r hr; cases hr
  | altL _ _ => intro r hr; cases hr
  | altR _ _ => intro r hr; cases hr
  | starNil => intro r _; left; rfl
  | starCons h1 h2 ih1 ih2 =>
    intro r hr
    injection hr with hr
    subst hr
    rcases lt_or_eq_of_le h1.pos_le with hik | hik
    · right
      exact ⟨_, hik, h1.end_le_length hik, h1, h2⟩
    · subst hik
      exact ih2 _ rfl

theorem starIter_sound {s : Str} {r : Regex} {limit : Nat}
    (stepSound : ∀ i j, j ∈ matchEnds s r i → MatchSpan s r i j) :
    ∀ fuel i j, j ∈ starIter limit (matchEnds s r) fuel i →
      MatchSpan s (.star r) i j := by
  intro fuel
  induction fuel with
  | zero =>
    intro i j hj
    simp [starIter] at hj
    subst hj
    exact .starNil
  | succ fuel ih =>
    intro i j hj
    simp only [starIter, List.mem_cons] at hj
    rcases hj with hj | hj
    · subst hj; exact .starNil
    · rw [List.mem_flatten] at hj
      rcases hj with ⟨l, hl, hjl⟩
      rw [List.mem_map] at hl
      rcases hl with ⟨k, hk, hlk⟩
      rw [List.mem_filter] at hk
      rcases hk with ⟨hkmem, _⟩
      subst hlk
      exact .starCons (stepSound _ _ hkmem) (ih _ _ hjl)

theorem matchEnds_sound {s : Str} : ∀ (r : Regex) (i j : Nat),
    j ∈ matchEnds s r i → MatchSpan s r i j := by
  intro r
  induction r with
  | eps =>
    intro i j hj
    simp [matchEnds] at hj
    subst hj
    exact .eps
  | char c =>
    intro i j hj
    simp only [matchEnds] at hj
    cases hc : s.get? i with
    | none => rw [hc] at hj; simp at hj
    | some c' =>
      rw [hc] at hj
      by_cases he : c' = c
      · simp [he] at hj
        subst hj
        subst he
        exact .char hc
      · simp [he] at hj
  | anyc =>
    intro i j hj
    simp only [matchEnds] at hj
    cases hc : s.get? i with
    | none => rw [hc] at hj; simp at hj
    | some c' =>
      rw [hc] at hj
      by_cases he : c' = '\n'
      · simp [he] at hj
      · simp [he] at hj
        subst hj
        exact .anyc hc he
  | concat r1 r2 ih1 ih2 =>
    intro i j hj
    simp only [matchEnds] at hj
    rw [List.mem_flatten] at hj
    rcases hj with ⟨l, hl, hjl⟩
    rw [List.mem_map] at hl
    rcases hl with ⟨k, hk, hlk⟩
    subst hlk
    exact .concatM (ih1 _ _ hk) (ih2 _ _ hjl)
  | alt r1 r2 ih1 ih2 =>
    intro i j hj
    simp only [matchEnds, List.mem_append] at hj
    rcases hj with hj | hj
    · exact .altL (ih1 _ _ hj)
    · exact .altR (ih2 _ _ hj)
  | star r ih =>
    intro i j hj
    exact starIter_sound ih _ i j hj
  | bol =>
    intro i j hj
    simp only [matchEnds] at hj
    by_cases hi : i = 0
    · simp [hi] at hj
      subst hj
      subst hi
      exact .bol
    · simp [hi] at hj
  | eol =>
    intro i j hj
    simp only [matchEnds] at hj
    by_cases hi : i = s.length
    · simp [hi] at hj
      subst hj
      subst hi
      exact .eol
    · simp [hi] at hj

theorem starIter_complete {s : Str} {r : Regex}
    (stepComplete : ∀ i j, MatchSpan s r i j → j ∈ matchEnds s r i) :
    ∀ fuel i j, MatchSpan s (.star r) i j → j - i ≤ fuel →
      j ∈ starIter s.length (matchEnds s r) fuel i := by
  intro fuel
  induction fuel with
  | zero =>
    intro i j h hfuel
    have hij := h.pos_le
    have : i = j := by omega
    subst this
    simp [starIter]
  | succ fuel ih =>
    intro i j h hfuel
    rcases h.star_norm r rfl with heq | ⟨k, hik, hklen, hstep, hrest⟩
    · subst heq
      simp [starIter]
    · have hkj := hrest.pos_le
      simp only [starIter, List.mem_cons]
      right
      rw [List.mem_flatten]
      refine ⟨starIter s.length (matchEnds s r) fuel k, ?_, ?_⟩
      · rw [List.mem_map]
        refine ⟨k, ?_, rfl⟩
        rw [List.mem_filter]
        refine ⟨stepComplete _ _ hstep, ?_⟩
        simp [hik, hklen]
      · exact ih k j hrest (by omega)

theorem matchEnds_complete {s : Str} : ∀ (r : Regex) (i j : Nat),
    MatchSpan s r i j → j ∈ matchEnds s r i := by
  intro r
  induction r with
  | eps =>
    intro i j h
    cases h
    simp [matchEnds]
  | char c =>
    intro i j h
    cases h with
    | char hc =>
      simp only [matchEnds]
      rw [hc]
      simp
  | anyc =>
    intro i j h
    cases h with
    | anyc hc hne =>
      simp only [matchEnds]
      rw [hc]
      simp [hne]
  | concat r1 r2 ih1 ih2 =>
    intro i j h
    cases h with
    | concatM h1 h2 =>
      simp only [matchEnds]
      rw [List.mem_flatten]
      exact ⟨_, List.mem_map.mpr ⟨_, ih1 _ _ h1, rfl⟩, ih2 _ _ h2⟩
  | alt r1 r2 ih1 ih2 =>
    intro i j h
    cases h with
    | altL h1 => simp only [matchEnds, List.mem_append]; exact Or.inl (ih1 _ _ h1)
    | altR h2 => simp only [matchEnds, List.mem_append]; exact Or.inr (ih2 _ _ h2)
  | star r ih =>
    intro i j h
    have hij := h.pos_le
    have hfuel : j - i ≤ s.length + 1 := by
      rcases lt_or_eq_of_le hij with hlt | heq
      · have := h.end_le_length hlt
        omega
      · omega
    exact starIter_complete ih _ i j h hfuel
  | bol =>
    intro i j h
    cases h
    simp [matchEnds]
  | eol =>
    intro i j h
    cases h
    simp [matchEnds]

theorem reMatch_iff {r : Regex} {s : Str} :
    reMatch r s = true ↔ ∃ j, MatchSpan s r 0 j := by
  constructor
  · intro h
    simp only [reMatch, Bool.not_eq_eq_eq_not, Bool.not_true,
      List.isEmpty_eq_false_iff_exists_mem] at h
    rcases h with ⟨j, hj⟩
    exact ⟨j, matchEnds_sound r 0 j hj⟩
  · intro ⟨j, hj⟩
    have := matchEnds_complete r 0 j hj
    simp only [reMatch, Bool.not_eq_eq_eq_not, Bool.not_true]
    rw [List.isEmpty_eq_false_iff_exists_mem]
    exact ⟨j, this⟩

-- ## Identifier and extension lemmas

theorem basename_append {a b : Str} (hb : '/' ∉ b) :
    basename (a ++ '/' :: b) = b := by
  unfold basename
  rw [List.reverse_append, List.reverse_cons, List.append_assoc]
  have hrev : '/' ∉ b.reverse := by
    intro hm
    exact hb (List.mem_reverse.mp hm)
  have hall : b.reverse.takeWhile (fun c => decide (c ≠ '/')) = b.reverse := by
    rw [List.takeWhile_eq_self_iff]
    intro c hc
    simp
    intro he
    exact hrev (he ▸ hc)
  rw [List.takeWhile_append]
  simp only [hall, List.length_reverse, if_pos rfl]
  simp [List.takeWhile]

theorem basename_no_slash {p : Str} (hp : '/' ∉ p) : basename p = p := by
  unfold basename
  have hrev : '/' ∉ p.reverse := fun hm => hp (List.mem_reverse.mp hm)
  have : p.reverse.takeWhile (fun c => decide (c ≠ '/')) = p.reverse := by
    rw [List.takeWhile_eq_self_iff]
    intro c hc
    simp
    intro he
    exact hrev (he ▸ hc)
  rw [this, List.reverse_reverse]

theorem getName_eq_map : ∀ p : Str, getName p = (basename p).map substBoth := by
  intro p
  unfold getName
  rw [List.map_map]
  apply List.map_congr_left
  intro c _
  simp only [Function.comp_apply, substBoth]
  by_cases h1 : c = '.'
  · simp [h1]
  · by_cases h2 : c = '$'
    · simp [h1, h2]
    · simp [h1, h2]

theorem lastDotSplit_eq_none {s : Str} : lastDotSplit s = none ↔ '.' ∉ s := by
  induction s with
  | nil => simp [lastDotSplit]
  | cons c cs ih =>
    rw [lastDotSplit]
    cases hcs : lastDotSplit cs with
    | some p =>
      have hdot : '.' ∈ cs := by
        by_contra hn
        rw [ih.mpr hn] at hcs
        cases hcs
      simp [hdot]
    | none =>
      have hcs2 : '.' ∉ cs := ih.mp hcs
      by_cases hc : c = '.'
      · subst hc
        simp
      · simp [hc, hcs2, Ne.symm hc]

theorem lastDotSplit_after_no_dot {s : Str} : ∀ {b a : Str},
    lastDotSplit s = some (b, a) → '.' ∉ a := by
  induction s with
  | nil => intro b a h; cases h
  | cons c cs ih =>
    intro b a h
    rw [lastDotSplit] at h
    cases hcs : lastDotSplit cs with
    | some p =>
      rcases p with ⟨b1, a1⟩
      rw [hcs] at h
      simp only [Option.some.injEq, Prod.mk.injEq] at h
      rcases h with ⟨_, ha⟩
      rw [← ha]
      exact ih hcs
    | none =>
      rw [hcs] at h
      by_cases hc : c = '.'
      · subst hc
        rw [if_pos rfl] at h
        simp only [Option.some.injEq, Prod.mk.injEq] at h
        rcases h with ⟨_, ha⟩
        rw [← ha]
        exact lastDotSplit_eq_none.mp hcs
      · rw [if_neg hc] at h
        cases h

theorem extField_no_dot (p : Str) : '.' ∉ extField p := by
  unfold extField splitextExt
  cases h : lastDotSplit (basename p) with
  | none => simp [stripLeadingDot]
  | some ba =>
    rcases ba with ⟨b, a⟩
    by_cases hall : b.all (fun c => c = '.')
    · simp [hall, stripLeadingDot]
    · simp only [hall]
      simp only [Bool.false_eq_true, if_false, stripLeadingDot]
      exact lastDotSplit_after_no_dot h

theorem extField_of_no_dot {p : Str} (h : '.' ∉ basename p) : extField p = [] := by
  unfold extField splitextExt
  rw [lastDotSplit_eq_none.mpr h]
  rfl

-- ## Decimal round-trip lemmas

theorem digit_char_isDigit {d : Nat} (h : d < 10) :
    (Char.ofNat (48 + d)).isDigit = true := by
  interval_cases d <;> decide

theorem digit_char_toNat {d : Nat} (h : d < 10) :
    (Char.ofNat (48 + d)).toNat = 48 + d := by
  interval_cases d <;> decide

theorem natToDecAux_all_digits : ∀ (fuel n : Nat), ∀ c ∈ natToDecAux fuel n,
    c.isDigit = true := by
  intro fuel
  induction fuel with
  | zero => intro n c hc; cases hc
  | succ fuel ih =>
    intro n c hc
    rw [natToDecAux] at hc
    by_cases h : n < 10
    · rw [if_pos h] at hc
      simp at hc
      subst hc
      exact digit_char_isDigit h
    · rw [if_neg h] at hc
      rw [List.mem_append] at hc
      rcases hc with hc | hc
      · exact ih _ _ hc
      · simp at hc
        subst hc
        exact digit_char_isDigit (Nat.mod_lt _ (by norm_num))

theorem natToDecAux_ne_nil : ∀ (fuel n : Nat), 0 < fuel →
    natToDecAux fuel n ≠ [] := by
  intro fuel n hf
  cases fuel with
  | zero => omega
  | succ fuel =>
    rw [natToDecAux]
    by_cases h : n < 10
    · rw [if_pos h]; simp
    · rw [if_neg h]; simp

theorem natToDecAux_foldl : ∀ (fuel n acc : Nat), n < fuel →
    (natToDecAux fuel n).foldl (fun (acc : Nat) (c : Char) =>
      acc * 10 + (c.toNat - 48)) acc =
    acc * 10 ^ (natToDecAux fuel n).length + n := by
  intro fuel
  induction fuel with
  | zero => intro n acc h; omega
  | succ fuel ih =>
    intro n acc h
    rw [natToDecAux]
    by_cases h10 : n < 10
    · rw [if_pos h10]
      simp only [List.foldl, List.length_cons, List.length_nil, pow_one,
        digit_char_toNat h10]
      omega
    · rw [if_neg h10]
      have hdiv : n / 10 < fuel := by omega
      rw [List.foldl_append, ih _ acc hdiv]
      simp only [List.foldl]
      rw [digit_char_toNat (Nat.mod_lt _ (by norm_num))]
      have hstep : 48 + n % 10 - 48 = n % 10 := by omega
      rw [hstep, List.length_append, List.length_cons, List.length_nil]
      have hdm : n / 10 * 10 + n % 10 = n := by omega
      calc (acc * 10 ^ (natToDecAux fuel (n / 10)).length + n / 10) * 10 + n % 10
          = acc * (10 ^ (natToDecAux fuel (n / 10)).length * 10) +
            (n / 10 * 10 + n % 10) := by ring
        _ = acc * 10 ^ ((natToDecAux fuel (n / 10)).length + 1) + n := by
            rw [hdm, pow_succ]

theorem takeWhile_digits_append {D r : Str}
    (hD : ∀ c ∈ D, c.isDigit = true)
    (hr : r.takeWhile (fun c => c.isDigit) = []) :
    (D ++ r).takeWhile (fun c => c.isDigit) = D ∧
      (D ++ r).dropWhile (fun c => c.isDigit) = r := by
  induction D with
  | nil =>
    refine ⟨hr, ?_⟩
    cases r with
    | nil => rfl
    | cons c cs =>
      rw [List.takeWhile_cons] at hr
      cases hd : c.isDigit with
      | true => rw [hd] at hr; simp at hr
      | false => rw [List.nil_append, List.dropWhile_cons, hd]; simp
  | cons d D ih =>
    have hd : d.isDigit = true := hD d (List.mem_cons_self d D)
    have hD2 : ∀ c ∈ D, c.isDigit = true := fun c hc =>
      hD c (List.mem_cons_of_mem d hc)
    rcases ih hD2 with ⟨h1, h2⟩
    constructor
    · simp [List.cons_append, List.takeWhile_cons, hd, h1]
    · simp [List.cons_append, List.dropWhile_cons, hd, h2]

theorem parseDigits_natToDec (n : Nat) (r : Str)
    (hr : r.takeWhile (fun c => c.isDigit) = []) :
    parseDigits (natToDec n ++ r) = (n, r) := by
  unfold parseDigits natToDec
  have hD := natToDecAux_all_digits (n + 1) n
  rcases takeWhile_digits_append hD hr with ⟨h1, h2⟩
  rw [h1, h2, natToDecAux_foldl (n + 1) n 0 (Nat.lt_succ_self n)]
  simp

theorem digit_ne_rbrace {c : Char} (h : c.isDigit = true) : ¬ (c = '\x7d') := by
  intro he
  subst he
  cases h

theorem parseBytes_closing (tail : Str) :
    parseBytes ('\x7d' :: tail) = some [] := by
  rw [parseBytes]
  simp

theorem parseBytes_bytesBody : ∀ (content : List Nat) (tail : Str),
    parseBytes (bytesBody content ++ '\x7d' :: tail) = some content := by
  intro content
  induction content with
  | nil =>
    intro tail
    simp only [bytesBody, List.map_nil, List.flatten_nil, List.nil_append]
    exact parseBytes_closing tail
  | cons b bs ih =>
    intro tail
    have hbody : bytesBody (b :: bs) ++ '\x7d' :: tail =
        natToDec b ++ (',' :: ' ' :: (bytesBody bs ++ '\x7d' :: tail)) := by
      simp [bytesBody, List.append_assoc]
    rw [hbody]
    have hpd : parseDigits (natToDec b ++
        (',' :: ' ' :: (bytesBody bs ++ '\x7d' :: tail))) =
        (b, ',' :: ' ' :: (bytesBody bs ++ '\x7d' :: tail)) := by
      apply parseDigits_natToDec
      rw [List.takeWhile_cons]
      simp
    have hne := natToDecAux_ne_nil (b + 1) b (Nat.succ_pos b)
    rcases hD : natToDec b with _ | ⟨c, cs⟩
    · exact absurd hD hne
    · have hdig : c.isDigit = true := by
        apply natToDecAux_all_digits (b + 1) b
        rw [← natToDec, hD]
        exact List.mem_cons_self c cs
      rw [hD] at hpd
      rw [List.cons_append]
      rw [parseBytes]
      rw [if_neg (digit_ne_rbrace hdig), if_pos hdig]
      rw [List.cons_append] at hpd
      split
      · rename_i n rest heq
        rw [hpd] at heq
        simp only [Prod.mk.injEq, List.cons.injEq] at heq
        rcases heq with ⟨hn, -, -, hrest⟩
        subst hn
        subst hrest
        rw [ih tail]
        rfl
      · rename_i heq
        rw [hpd] at heq
        exact (heq b (bytesBody bs ++ '\x7d' :: tail) rfl).elim

theorem dropWhile_to_brace : ∀ {pre : Str} (rest : Str), '\x7b' ∉ pre →
    (pre ++ '\x7b' :: rest).dropWhile (fun c => c ≠ '\x7b') = '\x7b' :: rest := by
  intro pre
  induction pre with
  | nil =>
    intro rest _
    rw [List.nil_append, List.dropWhile_cons]
    simp
  | cons c cs ih =>
    intro rest h
    have hc : c ≠ '\x7b' := fun he => h (he ▸ List.mem_cons_self c cs)
    have hcs : '\x7b' ∉ cs := fun hm => h (List.mem_cons_of_mem c hm)
    rw [List.cons_append, List.dropWhile_cons]
    rw [if_pos (by simp [hc])]
    exact ih rest hcs

theorem decode_render {name : Str} (content : List Nat)
    (hname : '\x7b' ∉ name) :
    decodeByteArrayDecl (renderByteArrayDecl name content) = some content := by
  have hdecomp : renderByteArrayDecl name content =
      (("static constexpr uint8 k".toList) ++ name ++ ("[] = ".toList)) ++
        '\x7b' :: ' ' :: (bytesBody content ++ '\x7d' :: (";\n".toList)) := by
    unfold renderByteArrayDecl
    have hB : ("[] = \x7b ".toList) = ("[] = ".toList) ++ '\x7b' :: [' '] := rfl
    have hC : ("\x7d;\n".toList) = '\x7d' :: (";\n".toList) := rfl
    rw [hB, hC]
    simp [List.append_assoc]
  unfold decodeByteArrayDecl
  rw [hdecomp]
  have hpre : '\x7b' ∉ (("static constexpr uint8 k".toList) ++ name ++
      ("[] = ".toList)) := by
    intro hm
    rw [List.mem_append, List.mem_append] at hm
    rcases hm with (hm | hm) | hm
    · revert hm; decide
    · exact hname hm
    · revert hm; decide
  rw [dropWhile_to_brace _ hpre]
  exact parseBytes_bytesBody content (";\n".toList)

-- ## Sorting and pipeline lemmas

instance : IsTotal Entry entryLe := ⟨fun a b => lexLe_total a.path b.path⟩

instance : IsTrans Entry entryLe := ⟨fun a b c => lexLe_trans a.path b.path c.path⟩

theorem sortEntries_sorted (l : List Entry) : (sortEntries l).Pairwise entryLe :=
  List.sorted_insertionSort entryLe l

theorem sortEntries_perm (l : List Entry) : (sortEntries l).Perm l :=
  List.perm_insertionSort entryLe l

theorem sortEntries_strict {l : List Entry} (h : (l.map Entry.path).Nodup) :
    ((sortEntries l).map Entry.path).Pairwise (fun a b => lexLt a b = true) := by
  have hperm : ((sortEntries l).map Entry.path).Perm (l.map Entry.path) :=
    (sortEntries_perm l).map Entry.path
  have hnd : ((sortEntries l).map Entry.path).Nodup := hperm.nodup_iff.mpr h
  have hsorted : ((sortEntries l).map Entry.path).Pairwise
      (fun a b => lexLe a b = true) :=
    List.Pairwise.map Entry.path (fun a b hab => hab) (sortEntries_sorted l)
  exact (hsorted.and hnd).imp (fun hab => (lexLt_iff _ _).mpr hab)

theorem enumerateOne_spec {world : Str → Location} {compile : Str → Option Regex}
    {loc patStr : Str} {r : Regex} (hl : ':' ∉ loc) (hp : ':' ∉ patStr)
    (hc : compile patStr = some r) :
    enumerateOne world compile (loc ++ ':' :: patStr) =
      match world loc with
      | .dir files =>
        ((files.filter (fun f => reMatch r f.1)).map (fun f => ⟨f.1, f.2⟩), none)
      | .unreadableDir => ([], none)
      | .archive es =>
        ((es.filter (fun f => reMatch r f.1)).map (fun f => ⟨f.1, f.2⟩), none)
      | .badArchive => ([], some .badZipFile)
      | .missing => ([], some .fileNotFound) := by
  unfold enumerateOne
  simp only [patternComponent_one_colon hl hp,
    locationComponent_one_colon hl hp, hc]

theorem enumerateOne_no_colon {world : Str → Location}
    {compile : Str → Option Regex} {input : Str} (h : ':' ∉ input) :
    enumerateOne world compile input = ([], some .indexError) := by
  unfold enumerateOne
  simp only [patternComponent_no_colon h]

theorem EnumerateInputs_cons_ok {world : Str → Location}
    {compile : Str → Option Regex} {i : Str} {rest : List Str}
    (h : (enumerateOne world compile i).2 = none) :
    EnumerateInputs world compile (i :: rest) =
      ((enumerateOne world compile i).1 ++ (EnumerateInputs world compile rest).1,
       (EnumerateInputs world compile rest).2) := by
  rcases henum : enumerateOne world compile i with ⟨items, err⟩
  rw [henum] at h
  simp at h
  subst h
  rw [EnumerateInputs, henum]

theorem EnumerateInputs_cons_err {world : Str → Location}
    {compile : Str → Option Regex} {i : Str} {rest : List Str} {e : GenError}
    (h : (enumerateOne world compile i).2 = some e) :
    EnumerateInputs world compile (i :: rest) =
      ((enumerateOne world compile i).1, some e) := by
  rcases henum : enumerateOne world compile i with ⟨items, err⟩
  rw [henum] at h
  simp at h
  subst h
  rw [EnumerateInputs, henum]

theorem EnumerateInputs_append {world : Str → Location}
    {compile : Str → Option Regex} : ∀ (pre rest : List Str),
    (EnumerateInputs world compile pre).2 = none →
    EnumerateInputs world compile (pre ++ rest) =
      ((EnumerateInputs world compile pre).1 ++
        (EnumerateInputs world compile rest).1,
       (EnumerateInputs world compile rest).2) := by
  intro pre
  induction pre with
  | nil =>
    intro rest _
    simp [EnumerateInputs]
  | cons i pre ih =>
    intro rest hnone
    rcases henum : (enumerateOne world compile i).2 with _ | e
    · rw [EnumerateInputs_cons_ok henum] at hnone ⊢
      simp at hnone
      rw [List.cons_append, EnumerateInputs_cons_ok henum, ih rest hnone]
      simp [List.append_assoc]
    · rw [EnumerateInputs_cons_err henum] at hnone
      cases hnone

-- ## Claims

theorem mem_basename_subset {c : Char} {p : Str} (h : c ∈ basename p) : c ∈ p := by
  unfold basename at h
  rw [List.mem_reverse] at h
  have h2 := (List.takeWhile_sublist (fun c => decide (c ≠ '/'))).subset h
  exact List.mem_reverse.mp h2

theorem brace_not_in_getName {p : Str} (h : '\x7b' ∉ p) : '\x7b' ∉ getName p := by
  rw [getName_eq_map]
  intro hm
  rcases List.mem_map.mp hm with ⟨c, hc, he⟩
  unfold substBoth at he
  by_cases hcd : c = '.' ∨ c = '$'
  · rw [if_pos hcd] at he
    cases he
  · rw [if_neg hcd] at he
    subst he
    exact h (mem_basename_subset hc)

/-- Claim C1: for every enumerated entry, the emitted byte-array declaration
lists exactly the bytes of the entry's content, in order, as decimal integers
in [0,255], read to exhaustion; decoding that declaration recovers the
original bytes exactly, for contents of any size (0, 1 or more bytes).  The
base name of the path is assumed brace-free so the decoder can locate the
initializer. -/
theorem c1_byte_array_round_trip : ∀ (e : Entry), '\x7b' ∉ e.path →
    e.content.all (fun b => b ≤ 255) = true →
    decodeByteArrayDecl (renderByteArrayDecl (getName e.path) e.content) =
      some e.content := by
  intro e hpath _
  exact decode_render e.content (brace_not_in_getName hpath)

/-- Witness for C1 at the three-byte entry `a/b/One.class`. -/
theorem c1_witness :
    decodeByteArrayDecl (renderByteArrayDecl (getName ("a/b/One.class".toList))
      [71, 73, 72]) = some [71, 73, 72] :=
  c1_byte_array_round_trip ⟨("a/b/One.class".toList), [71, 73, 72]⟩
    (by decide) (by decide)

/-- Claim C2 counterexample: two source specifications naming the same
directory and pattern put two entries with the equal relative path `a` into
the generated output, so the output is not strictly ascending. -/
theorem c2_counterexample :
    ¬ (((sortEntries (EnumerateInputs world0 compile0
        [("d:a".toList), ("d:a".toList)]).1).map Entry.path).Pairwise
      (fun a b => lexLt a b = true)) := by decide

/-- Claim C2 (amended): for every input, the entries of the generated output
appear in non-decreasing order of relative path under code-point wise string
ordering, and the order is strictly ascending whenever the matched relative
paths are pairwise distinct; duplicated paths (possible across overlapping
sources) produce equal neighbours. -/
theorem c2_sorted_amended (world : Str → Location)
    (compile : Str → Option Regex) (inputs : List Str) :
    (((sortEntries (EnumerateInputs world compile inputs).1).map
      Entry.path).Pairwise (fun a b => lexLe a b = true)) ∧
    (((EnumerateInputs world compile inputs).1.map Entry.path).Nodup →
      ((sortEntries (EnumerateInputs world compile inputs).1).map
        Entry.path).Pairwise (fun a b => lexLt a b = true)) :=
  ⟨List.Pairwise.map Entry.path (fun a b hab => hab) (sortEntries_sorted _),
   fun h => sortEntries_strict h⟩

/-- Witness for C2 on a directory with two distinct files. -/
theorem c2_witness :
    ((sortEntries (EnumerateInputs world0 compile0 [("e:".toList)]).1).map
      Entry.path).Pairwise (fun a b => lexLt a b = true) :=
  (c2_sorted_amended world0 compile0 [("e:".toList)]).2 (by decide)

/-- Claim C3: an entry of a directory or archive source is included exactly
when the compiled pattern matches its relative path at position 0; matching
is prefix-anchored — `reMatch` succeeds exactly when some span starting at
position 0 matches, trailing characters being allowed — and in particular
the pattern `^a/b` matches `a/b/c.txt` but not `x/a/b`. -/
theorem c3_match_semantics :
    (∀ (world : Str → Location) (compile : Str → Option Regex)
      (loc patStr : Str) (r : Regex) (files : List (Str × List Nat)),
      ':' ∉ loc → ':' ∉ patStr → compile patStr = some r →
      world loc = .dir files →
      (enumerateOne world compile (loc ++ ':' :: patStr)).1 =
        (files.filter (fun f => reMatch r f.1)).map (fun f => ⟨f.1, f.2⟩)) ∧
    (∀ (world : Str → Location) (compile : Str → Option Regex)
      (loc patStr : Str) (r : Regex) (es : List (Str × List Nat)),
      ':' ∉ loc → ':' ∉ patStr → compile patStr = some r →
      world loc = .archive es →
      (enumerateOne world compile (loc ++ ':' :: patStr)).1 =
        (es.filter (fun f => reMatch r f.1)).map (fun f => ⟨f.1, f.2⟩)) ∧
    (∀ (r : Regex) (s : Str), reMatch r s = true ↔ ∃ j, MatchSpan s r 0 j) ∧
    reMatch patAB ("a/b/c.txt".toList) = true ∧
    reMatch patAB ("x/a/b".toList) = false := by
  refine ⟨?_, ?_, fun r s => reMatch_iff, by decide, by decide⟩
  · intro world compile loc patStr r files hl hp hc hw
    rw [enumerateOne_spec hl hp hc]
    simp only [hw]
  · intro world compile loc patStr r es hl hp hc hw
    rw [enumerateOne_spec hl hp hc]
    simp only [hw]

/-- Witness for C3 on the directory source `d` with pattern `a`. -/
theorem c3_witness :
    (enumerateOne world0 compile0 (("d".toList) ++ ':' :: ("a".toList))).1 =
      (([((("a".toList) : Str), ([65] : List Nat))].filter
        (fun f => reMatch (.char 'a') f.1)).map (fun f => ⟨f.1, f.2⟩)) :=
  c3_match_semantics.1 world0 compile0 ("d".toList) ("a".toList) (.char 'a')
    [(("a".toList), [65])] (by decide) (by decide) (by decide) (by decide)

/-- Claim C4 counterexample: for the argument `l:a:b` the claim says the
pattern is everything after the first colon, `a:b`; the code's
`split(':', 2)` makes two splits, so `components[1]` is just `a`. -/
theorem c4_counterexample :
    patternComponent ("l:a:b".toList) = some ("a".toList) ∧
    patternComponent ("l:a:b".toList) ≠ some ("a:b".toList) := by
  refine ⟨by decide, by decide⟩

/-- Claim C4 (amended): the spec argument is split at the first two colons
(`split(':', 2)` allows two splits, i.e. up to three parts).  With exactly
one colon the pattern is everything after it; with two or more colons the
pattern is only the text between the first and the second colon, and the
text after the second colon is discarded. -/
theorem c4_split_amended :
    (∀ loc pat : Str, ':' ∉ loc → ':' ∉ pat →
      patternComponent (loc ++ ':' :: pat) = some pat) ∧
    (∀ loc p1 p2 : Str, ':' ∉ loc → ':' ∉ p1 →
      patternComponent (loc ++ ':' :: p1 ++ ':' :: p2) = some p1) := by
  constructor
  · exact fun loc pat hl hp => patternComponent_one_colon hl hp
  · intro loc p1 p2 hl hp
    unfold patternComponent
    rw [pySplit_two_two_colons p2 hl hp]
    rfl

/-- Witness for C4: the pattern part of `l:a:b` is `a`. -/
theorem c4_witness :
    patternComponent (("l".toList) ++ ':' :: ("a".toList) ++ ':' :: ("b".toList)) =
      some ("a".toList) :=
  c4_split_amended.2 ("l".toList) ("a".toList) ("b".toList)
    (by decide) (by decide)

/-- Claim C5: the generated table has exactly one record per matched
(source, entry) pair — as many records as entries yielded by enumeration,
which for a directory source is the number of files its pattern matches,
not the number of files scanned — and a spec listed twice contributes its
matched entries twice, with no deduplication across sources. -/
theorem c5_record_per_match :
    (∀ entries : List Entry, (tableRecords entries).length = entries.length) ∧
    (∀ (world : Str → Location) (compile : Str → Option Regex)
      (loc patStr : Str) (r : Regex) (files : List (Str × List Nat)),
      ':' ∉ loc → ':' ∉ patStr → compile patStr = some r →
      world loc = .dir files →
      (enumerateOne world compile (loc ++ ':' :: patStr)).1.length =
        (files.filter (fun f => reMatch r f.1)).length) ∧
    (∀ (world : Str → Location) (compile : Str → Option Regex) (i : Str)
      (rest : List Str), (enumerateOne world compile i).2 = none →
      (EnumerateInputs world compile (i :: i :: rest)).1 =
        (enumerateOne world compile i).1 ++ ((enumerateOne world compile i).1 ++
          (EnumerateInputs world compile rest).1)) := by
  refine ⟨?_, ?_, ?_⟩
  · intro entries
    unfold tableRecords
    rw [List.length_map]
    exact (sortEntries_perm entries).length_eq
  · intro world compile loc patStr r files hl hp hc hw
    rw [enumerateOne_spec hl hp hc]
    simp only [hw]
    rw [List.length_map]
  · intro world compile i rest h
    rw [EnumerateInputs_cons_ok h, EnumerateInputs_cons_ok h]

/-- Witness for C5: the same spec twice yields its single matched entry
twice. -/
theorem c5_witness :
    (EnumerateInputs world0 compile0 [("d:a".toList), ("d:a".toList)]).1 =
      (enumerateOne world0 compile0 ("d:a".toList)).1 ++
        ((enumerateOne world0 compile0 ("d:a".toList)).1 ++
          (EnumerateInputs world0 compile0 []).1) :=
  c5_record_per_match.2.2 world0 compile0 ("d:a".toList) [] (by decide)

/-- Claim C6: the generated identifier is the final path segment (the text
after the last path separator) with every `.` and `$` replaced by `_` and
nothing else changed; in particular `a/b/My.File$1.class` yields
`My_File_1_class`. -/
theorem c6_identifier :
    (∀ p : Str, getName p = (basename p).map substBoth) ∧
    (∀ a b : Str, '/' ∉ b → basename (a ++ '/' :: b) = b) ∧
    getName ("a/b/My.File$1.class".toList) = ("My_File_1_class".toList) :=
  ⟨getName_eq_map, fun a b hb => basename_append hb, by decide⟩

/-- Witness for C6 on the path `a/b/My.File$1.class`. -/
theorem c6_witness :
    basename (("a/b".toList) ++ '/' :: ("My.File$1.class".toList)) =
      ("My.File$1.class".toList) :=
  c6_identifier.2.1 ("a/b".toList) ("My.File$1.class".toList) (by decide)

/-- Claim C7: the extension field of a table record is the file extension of
the entry's path with the leading dot stripped — it never contains a dot —
and it is empty when the final path segment has no dot; in particular
`a/b/file.bin` yields `bin` and `a/b/NoExt` yields the empty string. -/
theorem c7_extension :
    (∀ e : Entry, (recordOf e).ext = extField e.path) ∧
    (∀ p : Str, '.' ∉ basename p → extField p = []) ∧
    (∀ p : Str, '.' ∉ extField p) ∧
    extField ("a/b/file.bin".toList) = ("bin".toList) ∧
    extField ("a/b/NoExt".toList) = [] :=
  ⟨fun e => rfl, fun p h => extField_of_no_dot h, extField_no_dot,
   by decide, by decide⟩

/-- Witness for C7 on a final segment without a dot. -/
theorem c7_witness : extField ("a/b/NoDot".toList) = [] :=
  c7_extension.2.1 ("a/b/NoDot".toList) (by decide)

/-- Claim C8 counterexample: with the valid spec `d:a` (one matching file)
followed by the spec `d:(` whose pattern does not compile, the run does fail
with a pattern-syntax error, but the entry of the first source has already
been enumerated when the failure occurs — refuting `no entry from any
source is enumerated before the failure`. -/
theorem c8_counterexample :
    (EnumerateInputs world0 compile0 [("d:a".toList), ("d:(".toList)]).2 =
      some .patternSyntaxError ∧
    (EnumerateInputs world0 compile0 [("d:a".toList), ("d:(".toList)]).1 ≠ [] := by
  refine ⟨by decide, by decide⟩

/-- Claim C8 (amended): when a spec carries a pattern that fails to compile
and every earlier spec enumerates without error, the run fails with a
pattern-syntax error as soon as the generator reaches that spec — before any
entry of that spec's source or of later specs is enumerated — but the
entries of all earlier specs have already been enumerated. -/
theorem c8_pattern_error_amended (world : Str → Location)
    (compile : Str → Option Regex) (pre : List Str) (input : Str)
    (rest : List Str) (patStr : Str)
    (hpre : (EnumerateInputs world compile pre).2 = none)
    (hpat : patternComponent input = some patStr)
    (hbad : compile patStr = none) :
    EnumerateInputs world compile (pre ++ input :: rest) =
      ((EnumerateInputs world compile pre).1, some .patternSyntaxError) := by
  have hone : enumerateOne world compile input = ([], some .patternSyntaxError) := by
    unfold enumerateOne
    simp only [hpat, hbad]
  have h2 : (enumerateOne world compile input).2 = some .patternSyntaxError := by
    rw [hone]
  rw [EnumerateInputs_append pre (input :: rest) hpre,
    EnumerateInputs_cons_err h2, hone]
  simp

/-- Witness for C8: one well-formed spec followed by one with an invalid
pattern. -/
theorem c8_witness :
    EnumerateInputs world0 compile0 ([("d:a".toList)] ++ ("d:(".toList) :: []) =
      ((EnumerateInputs world0 compile0 [("d:a".toList)]).1,
        some .patternSyntaxError) :=
  c8_pattern_error_amended world0 compile0 [("d:a".toList)] ("d:(".toList) []
    ("(".toList) (by decide) (by decide) (by decide)

/-- Claim C9 counterexample: `u` is a directory that `os.path.isdir`
accepts but whose contents cannot be listed; `os.walk` with its default
`onerror=None` ignores the failure, so enumerating the spec `u:a` raises no
file-system error at all — it just yields no entries. -/
theorem c9_counterexample :
    world0 ("u".toList) = .unreadableDir ∧
    enumerateOne world0 compile0 ("u:a".toList) = ([], none) := by
  refine ⟨by decide, by decide⟩

/-- Claim C9 (amended): a location that does not exist fails with a
file-system error (`FileNotFoundError` raised by `zipfile.ZipFile`, not an
archive error); an existing file that is not a valid archive fails with an
archive-format error (`zipfile.BadZipFile`); but an unreadable directory
does not fail — the walk silently yields no entries. -/
theorem c9_errors_amended (world : Str → Location)
    (compile : Str → Option Regex) (loc patStr : Str) (r : Regex)
    (hl : ':' ∉ loc) (hp : ':' ∉ patStr) (hc : compile patStr = some r) :
    (world loc = .missing →
      enumerateOne world compile (loc ++ ':' :: patStr) =
        ([], some .fileNotFound)) ∧
    (world loc = .badArchive →
      enumerateOne world compile (loc ++ ':' :: patStr) =
        ([], some .badZipFile)) ∧
    (world loc = .unreadableDir →
      enumerateOne world compile (loc ++ ':' :: patStr) = ([], none)) := by
  refine ⟨fun hw => ?_, fun hw => ?_, fun hw => ?_⟩ <;>
    rw [enumerateOne_spec hl hp hc] <;> simp only [hw]

/-- Witness for C9 on a missing location `m`. -/
theorem c9_witness :
    enumerateOne world0 compile0 (("m".toList) ++ ':' :: ("a".toList)) =
      ([], some .fileNotFound) :=
  (c9_errors_amended world0 compile0 ("m".toList) ("a".toList) (.char 'a')
    (by decide) (by decide) (by decide)).1 (by decide)

/-- Claim C10: a spec argument with no colon splits into a single-element
list, so reading `components[1]` is an out-of-range access raising
`IndexError` while the enumeration runs; there is no malformed-argument
report at argument-parsing time (`main` only counts its arguments). -/
theorem c10_no_colon_index_error (world : Str → Location)
    (compile : Str → Option Regex) (input : Str) (rest : List Str)
    (h : ':' ∉ input) :
    pySplit ':' 2 input = [input] ∧ patternComponent input = none ∧
    EnumerateInputs world compile (input :: rest) = ([], some .indexError) := by
  refine ⟨pySplit_of_not_mem h, patternComponent_no_colon h, ?_⟩
  have hone : enumerateOne world compile input = ([], some .indexError) :=
    enumerateOne_no_colon h
  have h2 : (enumerateOne world compile input).2 = some .indexError := by
    rw [hone]
  rw [EnumerateInputs_cons_err h2, hone]

/-- Witness for C10 on the colon-free argument `da`. -/
theorem c10_witness :
    EnumerateInputs world0 compile0 [("da".toList)] = ([], some .indexError) :=
  (c10_no_colon_index_error world0 compile0 ("da".toList) [] (by decide)).2.2
